import Mathlib

/-!
Verification of the `nel` Javascript session module (src/lib/nel.js).

Javascript strings are modelled as `List Char`; cursor positions and string
indices as `Nat` (with `Int` where the source can produce `-1`, e.g.
`String.prototype.indexOf`).  Each definition is a direct translation of the
correspondingly named construct in src/lib/nel.js.
-/

set_option maxRecDepth 10000

namespace Nel

/-- Shorthand: a Javascript string literal as a list of characters. -/
def str (s : String) : List Char := s.toList

/-- Javascript `\s` character class (as used by `whitespaceRE = /\s/`). -/
def isWhitespaceChar (c : Char) : Bool :=
  let n := c.toNat
  n = 32 || n = 9 || n = 10 || n = 11 || n = 12 || n = 13 ||
  n = 0xa0 || n = 0x1680 || (0x2000 ≤ n && n ≤ 0x200a) ||
  n = 0x2028 || n = 0x2029 || n = 0x202f || n = 0x205f || n = 0x3000 || n = 0xfeff

/-- Javascript line terminators, which the regex metacharacter `.` does not match. -/
def isLineTerminator (c : Char) : Bool :=
  let n := c.toNat
  n = 10 || n = 13 || n = 0x2028 || n = 0x2029

/-- Character class `[_$a-zA-Z]` (start of a simple identifier). -/
def isIdentStart (c : Char) : Bool :=
  let n := c.toNat
  n = 95 || n = 36 || (97 ≤ n && n ≤ 122) || (65 ≤ n && n ≤ 90)

/-- Character class `[_$a-zA-Z0-9]` (continuation of a simple identifier). -/
def isIdentCont (c : Char) : Bool :=
  let n := c.toNat
  n = 95 || n = 36 || (97 ≤ n && n ≤ 122) || (65 ≤ n && n ≤ 90) || (48 ≤ n && n ≤ 57)

/-- Character class `[a-zA-Z]` (used by the documentation rewrite regexes). -/
def isAsciiLetter (c : Char) : Bool :=
  let n := c.toNat
  (97 ≤ n && n ≤ 122) || (65 ≤ n && n ≤ 90)

/-- `s` is a non-empty match of `[_$a-zA-Z][_$a-zA-Z0-9]*`. -/
def isIdentRun (s : List Char) : Bool :=
  match s with
  | [] => false
  | c :: rest => isIdentStart c && rest.all isIdentCont

/--
`simpleIdentifierRE.exec(s)` for `simpleIdentifierRE = /[_$a-zA-Z][_$a-zA-Z0-9]*$/`:
the leftmost position `p` from which the whole remaining suffix is an
identifier run (the `$` anchor forces the match to extend to the end of the
string).  Returns `re.index`; the matched text `re[0]` is `s.drop p`.
-/
def simpleIdentifierMatch (s : List Char) : Option Nat :=
  (List.range s.length).find? (fun p => isIdentRun (s.drop p))

/--
One `Tail` alternative of `complexIdentifierRE`, i.e. one repetition of
`(?:[_$a-zA-Z][_$a-zA-Z0-9]*|\.[_$a-zA-Z][_$a-zA-Z0-9]*|\[".*"\]|\['.*'\])`.
The `.*` inside the bracket forms matches any characters except line
terminators (including quote characters, since `.` is unescaped in the source).
-/
def isTail (t : List Char) : Bool :=
  isIdentRun t ||
  (match t with
   | '.' :: rest => isIdentRun rest
   | _ => false) ||
  (match t with
   | '[' :: '"' :: rest =>
     decide (2 ≤ rest.length) &&
     (rest.take (rest.length - 2)).all (fun c => !isLineTerminator c) &&
     decide (rest.drop (rest.length - 2) = ['"', ']'])
   | _ => false) ||
  (match t with
   | '[' :: '\'' :: rest =>
     decide (2 ≤ rest.length) &&
     (rest.take (rest.length - 2)).all (fun c => !isLineTerminator c) &&
     decide (rest.drop (rest.length - 2) = ['\'', ']'])
   | _ => false)

/-- `s` is a concatenation of `Tail` repetitions (possibly zero).
Fuel-based recursion; every tail consumes at least one character, so fuel
equal to the length of the string suffices. -/
def canTails : Nat → List Char → Bool
  | _, [] => true
  | 0, _ :: _ => false
  | fuel + 1, s =>
    (List.range' 1 s.length).any (fun t => isTail (s.take t) && canTails fuel (s.drop t))

/-- The whole string `s` is matched by the body of `complexIdentifierRE`:
a leading identifier run followed by a sequence of tails. -/
def matchesComplexFull (s : List Char) : Bool :=
  (List.range' 1 s.length).any
    (fun k => isIdentRun (s.take k) && canTails s.length (s.drop k))

/--
`complexIdentifierRE.exec(s)` for
`complexIdentifierRE = /[_$a-zA-Z][_$a-zA-Z0-9]*(?:...)*$/`:
the leftmost position `p` from which the whole remaining suffix is matched
(the `$` anchor forces the match to extend to the end).  Returns `re.index`;
the matched text `re[0]` is `s.drop p`.
-/
def complexIdentifierMatch (s : List Char) : Option Nat :=
  (List.range s.length).find? (fun p => matchesComplexFull (s.drop p))

/-- `code.slice(a, b)` for `0 ≤ a ≤ b` (as used in `parseExpression`). -/
def jsSlice (l : List Char) (a b : Nat) : List Char :=
  (l.take b).drop a

/-- The `Expression` record produced by `parseExpression`. -/
structure Expression where
  matchedText : List Char
  scope : List Char
  leftOp : List Char
  selector : List Char
  rightOp : List Char
deriving DecidableEq, Repr

/-- `whitespaceRE.test(expression[expression.length - 1])` on a possibly
empty string (Javascript indexes out of range yield `undefined`, which the
regex test rejects). -/
def lastIsWhitespace (l : List Char) : Bool :=
  match l.getLast? with
  | some c => isWhitespaceChar c
  | none => false

/--
Detection of the access operator at the end of the remaining expression text
(the `if`/`else if` chain over `expression[expression.length - 1]` and
`expression[expression.length - 2]` in `parseExpression`).  Returns the
remaining text with the operator stripped, together with `leftOp`/`rightOp`.
-/
def splitOp (expr1 : List Char) : Option (List Char × List Char × List Char) :=
  match expr1.reverse with
  | '.' :: rest => some (rest.reverse, ['.'], [])
  | '"' :: '[' :: rest => some (rest.reverse, ['[', '"'], ['"', ']'])
  | '\'' :: '[' :: rest => some (rest.reverse, ['[', '\''], ['\'', ']'])
  | _ => none

/--
Stripping the trailing selector: `simpleIdentifierRE.exec(expression)` and
the subsequent truncation `expression = expression.slice(0, re.index)`.
Returns the remaining text and the selector.
-/
def splitSelector (pre : List Char) : List Char × List Char :=
  match simpleIdentifierMatch pre with
  | none => (pre, [])
  | some p => (pre.take p, pre.drop p)

/--
`parseExpression(code, cursorPos)` from src/lib/nel.js.  Returns `none` for
the Javascript `null` ("not implemented") result, and `some e` otherwise.
-/
def parseExpression (code : List Char) (cursorPos : Nat) : Option Expression :=
  if code.take cursorPos = [] ∨ lastIsWhitespace (code.take cursorPos) then
    some ⟨[], [], [], [], []⟩
  else
    match splitOp (splitSelector (code.take cursorPos)).1 with
    | none =>
      some ⟨jsSlice code (splitSelector (code.take cursorPos)).1.length cursorPos,
            [], [], (splitSelector (code.take cursorPos)).2, []⟩
    | some (expr2, leftOp, rightOp) =>
      match complexIdentifierMatch expr2 with
      | some idx =>
        some ⟨jsSlice code idx cursorPos, expr2.drop idx, leftOp,
              (splitSelector (code.take cursorPos)).2, rightOp⟩
      | none =>
        if leftOp = [] then
          some ⟨jsSlice code expr2.length cursorPos, [], leftOp,
                (splitSelector (code.take cursorPos)).2, rightOp⟩
        else
          none

/-- The `javascriptKeywords` array from src/lib/nel.js, in declared order. -/
def javascriptKeywords : List (List Char) :=
  [str "break", str "case", str "catch", str "continue", str "debugger", str "default",
   str "delete", str "do", str "else", str "finally", str "for", str "function", str "if",
   str "in", str "instanceof", str "new", str "return", str "switch", str "this",
   str "throw", str "try", str "typeof", str "var", str "void", str "while", str "with",
   str "class", str "const", str "enum", str "export", str "extends", str "import",
   str "super",
   str "implements", str "interface", str "let", str "package", str "private",
   str "protected", str "public", str "static", str "yield",
   str "null",
   str "true", str "false"]

/-- The `completion` record passed to `onCompletionSuccess`. -/
structure CompletionResult where
  list : List (List Char)
  code : List Char
  cursorPos : Nat
  matchedText : List Char
  cursorStart : Int
  cursorEnd : Int
deriving DecidableEq, Repr

/--
The `matchList` computation inside `Session.prototype.complete`'s
`onSuccess` callback, step by step.  First step: start from the
worker-returned property names and append the reserved-word list when the
scope is empty.
-/
def matchListBase (e : Expression) (names : List (List Char)) : List (List Char) :=
  if e.scope = [] then names ++ javascriptKeywords else names

/-- Second step: when the selector is non-empty, keep only the entries that
start with it (`e.lastIndexOf(expression.selector, 0) === 0` tests exactly
that `e` starts with the selector). -/
def matchListFiltered (e : Expression) (names : List (List Char)) : List (List Char) :=
  if e.selector ≠ [] then
    (matchListBase e names).filter (fun x => e.selector.isPrefixOf x)
  else
    matchListBase e names

/-- Third step: wrap each entry as `left + entry + right` where
`left = scope + leftOp` and `right = rightOp`, unless both are empty. -/
def completionList (e : Expression) (names : List (List Char)) : List (List Char) :=
  if e.scope ++ e.leftOp ≠ [] ∨ e.rightOp ≠ [] then
    (matchListFiltered e names).map (fun x => (e.scope ++ e.leftOp) ++ x ++ e.rightOp)
  else
    matchListFiltered e names

/-- `matchList.reduce(function(p, c) { return p.length <= c.length ? p : c; })`.
Javascript `reduce` without an initial value starts from the first element;
it throws on an empty array, which the source guards against
(`matchList.length > 0`), so the `[]` case here is never reached from
`completeOnSuccess`. -/
def reduceShortest : List (List Char) → List Char
  | [] => []
  | x :: xs => xs.foldl (fun p c => if p.length ≤ c.length then p else c) x

/-- First index at which `pat` occurs in `hay` (the index that
`hay.indexOf(pat)` returns when the pattern is present). -/
def strIndexOf (hay pat : List Char) : Option Nat :=
  (List.range (hay.length + 1)).find? (fun i => pat.isPrefixOf (hay.drop i))

/-- `hay.indexOf(pat)` with the Javascript `-1` convention. -/
def jsIndexOf (hay pat : List Char) : Int :=
  match strIndexOf hay pat with
  | some i => (i : Int)
  | none => -1

/-- `code.charAt(pos)`: `none` models the empty string returned for an
out-of-range index. -/
def charAt (code : List Char) (pos : Int) : Option Char :=
  if 0 ≤ pos then code.get? pos.toNat else none

/--
The scanning loop computing `cursorEnd` in `Session.prototype.complete`:
`for (var i = 0; i < ml && cursorEnd < cl; i++, cursorEnd++)
   if (shortestMatch.charAt(i) !== code.charAt(cursorEnd)) break;`
-/
def scanLoop (code : List Char) : List Char → Int → Int
  | [], pos => pos
  | c :: rest, pos =>
    if pos < (code.length : Int) then
      if charAt code pos = some c then scanLoop code rest (pos + 1) else pos
    else pos

/--
The `onSuccess` callback of the `getAllPropertyNames` task created by
`Session.prototype.complete`, as a pure function of the parsed expression and
the worker-returned property names.
-/
def completeOnSuccess (code : List Char) (cursorPos : Nat) (e : Expression)
    (names : List (List Char)) : CompletionResult :=
  if completionList e names ≠ [] then
    ⟨completionList e names, code, cursorPos, e.matchedText,
     jsIndexOf code e.matchedText,
     scanLoop code (reduceShortest (completionList e names)) (jsIndexOf code e.matchedText)⟩
  else
    ⟨completionList e names, code, cursorPos, e.matchedText,
     (cursorPos : Int), (cursorPos : Int)⟩

/-- The completion delivered when `parseExpression` returns `null`. -/
def emptyCompletion (code : List Char) (cursorPos : Nat) : CompletionResult :=
  ⟨[], code, cursorPos, [], (cursorPos : Int), (cursorPos : Int)⟩

/-- The completion result `Session.prototype.complete` delivers to
`onCompletionSuccess`, given the property names of a successful worker reply. -/
def completeResult (code : List Char) (cursorPos : Nat)
    (names : List (List Char)) : CompletionResult :=
  match parseExpression code cursorPos with
  | none => emptyCompletion code cursorPos
  | some e => completeOnSuccess code cursorPos e names

/-- Length of the longest common prefix of two strings (specification-level
description of the `cursorEnd` scan). -/
def commonPrefixLen : List Char → List Char → Nat
  | a :: as, b :: bs => if a = b then commonPrefixLen as bs + 1 else 0
  | _, _ => 0

/-! ### Documentation lookup (`getDocumentation`) -/

/-- A record of the external documentation table (`./mdn.js`). -/
structure DocEntry where
  description : List Char
  usage : Option (List Char)
  url : List Char
deriving DecidableEq, Repr

/--
`name.replace(/^[a-zA-Z]+WORD./, REPL)` for a literal `WORD` ("Error" or
"Array"): the anchored match takes one or more ASCII letters (greedily, so the
largest viable letter count wins), then the literal word, then `.` — which,
being an unescaped regex metacharacter in the source, matches any single
character except a line terminator.  If no prefix matches, the name is
returned unchanged.
-/
def rewriteBuiltin (word repl name : List Char) : List Char :=
  match (List.range name.length).reverse.find? (fun k =>
      decide (1 ≤ k) && (name.take k).all isAsciiLetter &&
      decide ((name.drop k).take word.length = word) &&
      (match name.get? (k + word.length) with
       | some c => !isLineTerminator c
       | none => false)) with
  | some k => repl ++ name.drop (k + word.length + 1)
  | none => name

/--
`getDocumentation(name)` from src/lib/nel.js, with the external documentation
table abstracted as a partial map `table`.  Tries the name verbatim, then the
`Error` rewrite of the original name, then the `Array` rewrite of the
original name.
-/
def getDocumentation (table : List Char → Option DocEntry)
    (name : List Char) : Option DocEntry :=
  match table name with
  | some d => some d
  | none =>
    match table (rewriteBuiltin (str "Error") (str "Error.") name) with
    | some d => some d
    | none =>
      match table (rewriteBuiltin (str "Array") (str "TypedArray.") name) with
      | some d => some d
      | none => none

/--
Modelled from the spec (Documentation Lookup, 4.5), for comparison with
`getDocumentation`: the rewrite fires only on a literal `<Anything>Error.`
(resp. `<Anything>Array.`) prefix, i.e. the character after the word must be
an actual dot.
-/
def specRewriteBuiltin (word repl name : List Char) : List Char :=
  match (List.range name.length).reverse.find? (fun k =>
      decide (1 ≤ k) && (name.take k).all isAsciiLetter &&
      decide ((name.drop k).take word.length = word) &&
      decide (name.get? (k + word.length) = some '.')) with
  | some k => repl ++ name.drop (k + word.length + 1)
  | none => name

/-- Modelled from the spec (Documentation Lookup, 4.5): the lookup chain as
the specification describes it, using `specRewriteBuiltin`. -/
def specGetDocumentation (table : List Char → Option DocEntry)
    (name : List Char) : Option DocEntry :=
  match table name with
  | some d => some d
  | none =>
    match table (specRewriteBuiltin (str "Error") (str "Error.") name) with
    | some d => some d
    | none =>
      match table (specRewriteBuiltin (str "Array") (str "TypedArray.") name) with
      | some d => some d
      | none => none

/-! ### Worker replies and the resolver control flows

`Session.prototype.execute`, `complete` and `inspect` submit primitive tasks
to an idle session and react to the worker's reply.  The flows below inline
the session dispatch (`_run`/`_runNow`/`_onMessage`) for an idle session and
record externally visible actions as an event trace.  Caller callbacks are
modelled as provided (present); whether each fires is exactly the source's
control flow.
-/

/-- The `error` payload of a worker reply (`{ename, evalue, traceback}`). -/
structure ErrorResult where
  ename : List Char
  evalue : List Char
  traceback : List (List Char)
deriving DecidableEq, Repr

/-- Success payload of a `run` task (`{mime: {...}}`). -/
structure ExecutionResult where
  textPlain : Option (List Char)
  textHtml : Option (List Char)
deriving DecidableEq, Repr

/-- Success payload of an `inspect` task (the `inspection` field). -/
structure InspectionPayload where
  string : List Char
  type : List Char
  constructorList : Option (List (List Char))
  length : Option Nat
deriving DecidableEq, Repr

/-- The enriched inspection record delivered to `onInspectionSuccess`:
the worker payload stamped with `code`/`cursorPos`/`matchedText` and an
optional documentation entry. -/
structure InspectionReport where
  payload : InspectionPayload
  code : List Char
  cursorPos : Nat
  matchedText : List Char
  doc : Option DocEntry
deriving DecidableEq, Repr

/-- A worker reply: either a success payload or an error payload (presence of
the `error` key is the sole discriminator in `_onMessage`). -/
inductive Reply (α : Type) where
  | success (result : α)
  | error (e : ErrorResult)
deriving DecidableEq, Repr

/-- Externally visible events of a resolver flow, in order of occurrence. -/
inductive Ev where
  | beforeRun
  | request (action : String) (code : List Char)
  | onExecutionSuccess (r : ExecutionResult)
  | onCompletionSuccess (r : CompletionResult)
  | onInspectionSuccess (r : InspectionReport)
  | onError (e : ErrorResult)
  | afterRun
deriving DecidableEq, Repr

/--
`Session.prototype.execute` on an idle session: the `run` task carries all
four callbacks, so `_onMessage` fires `afterRun` after either outcome.
-/
def executeFlow (code : List Char) (reply : Reply ExecutionResult) : List Ev :=
  [Ev.beforeRun, Ev.request "run" code] ++
  (match reply with
   | .success r => [Ev.onExecutionSuccess r]
   | .error e => [Ev.onError e]) ++
  [Ev.afterRun]

/--
`Session.prototype.complete` on an idle session.  A `null` expression is
answered locally without contacting the worker (and without `beforeRun` or
`afterRun`); otherwise a single `getAllPropertyNames` task is dispatched
whose code is the scope, or the literal `"global"` when the scope is empty.
The task carries `afterRun`, so it fires after either outcome.
-/
def completeFlow (code : List Char) (cursorPos : Nat)
    (reply : Reply (List (List Char))) : List Ev :=
  match parseExpression code cursorPos with
  | none => [Ev.onCompletionSuccess (emptyCompletion code cursorPos)]
  | some e =>
    [Ev.beforeRun,
     Ev.request "getAllPropertyNames" (if e.scope = [] then str "global" else e.scope)] ++
    (match reply with
     | .success names => [Ev.onCompletionSuccess (completeOnSuccess code cursorPos e names)]
     | .error err => [Ev.onError err]) ++
    [Ev.afterRun]

/-- The first documentation hit while walking the constructor list in order
(the `for (var i in constructorList)` loop with `break` on the first hit in
`getDocumentationAndInvokeCallbacks`). -/
def docFromConstructorList (table : List Char → Option DocEntry)
    (selector : List Char) (constructorList : Option (List (List Char))) :
    Option DocEntry :=
  match constructorList with
  | none => none
  | some cl => cl.findSome? (fun c =>
      getDocumentation table (c ++ str ".prototype." ++ selector))

/--
`Session.prototype.inspect` on an idle session.  Neither primitive `inspect`
task carries an `afterRun` member, so `_onMessage` never fires `afterRun` for
them; the caller's `afterRun` is invoked only by `invokeCallbacks` on the
success path, after documentation resolution.  `r1` is the worker's reply to
the expression inspection and `r2` its reply to the scope inspection (sent,
and therefore consumed, only when the first reply succeeds and the scope is
non-empty).
-/
def inspectFlow (table : List Char → Option DocEntry) (code : List Char)
    (cursorPos : Nat) (r1 r2 : Reply InspectionPayload) : List Ev :=
  match parseExpression code cursorPos with
  | none =>
    [Ev.onInspectionSuccess ⟨⟨[], [], none, none⟩, code, cursorPos, [], none⟩]
  | some e =>
    [Ev.beforeRun, Ev.request "inspect" e.matchedText] ++
    match r1 with
    | .error err => [Ev.onError err]
    | .success p1 =>
      if e.scope = [] then
        [Ev.onInspectionSuccess
          ⟨p1, code, cursorPos, e.matchedText, getDocumentation table e.matchedText⟩,
         Ev.afterRun]
      else
        [Ev.beforeRun, Ev.request "inspect" e.scope] ++
        match r2 with
        | .error err => [Ev.onError err]
        | .success p2 =>
          [Ev.onInspectionSuccess
            ⟨p1, code, cursorPos, e.matchedText,
             docFromConstructorList table e.selector p2.constructorList⟩,
           Ev.afterRun]

/-! ### The task queue / session controller

`Session` state is the current task (`_task`), the pending queue (`_tasks`)
and the `_killed` flag.  Tasks are abstracted to their identity, request
fields, and which optional callbacks they carry; the externally visible
behaviour of `_run`/`_runNow`/`_runLater`/`_onMessage`/`kill` is recorded as
an event trace.  A `reply` input models the server's `message` event;
`kill` calls `removeAllListeners`, so a reply arriving after `kill` invokes
nothing, and the worker's contract (exactly one reply per request) means a
reply never arrives while `_task` is `null` — that case is modelled as a
no-op.
-/

/-- A task as queued by `Session.prototype._run` (identity, request fields,
and which optional callbacks it carries). -/
structure STask where
  id : Nat
  action : String
  code : List Char
  hasBeforeRun : Bool
  hasOnSuccess : Bool
  hasOnError : Bool
  hasAfterRun : Bool
deriving DecidableEq, Repr

/-- The mutable state of a `Session`. -/
structure SessionState where
  task : Option STask
  tasks : List STask
  killed : Bool
deriving DecidableEq, Repr

/-- Inputs driving a session: a task submission (from `execute`, `complete`
or `inspect`), a worker reply, or a `kill` call. -/
inductive SInput where
  | submit (t : STask)
  | reply (isError : Bool)
  | kill
deriving DecidableEq, Repr

/-- Externally visible session events. `send` is `this._server.send([action,
code])`; `replyProcessed` marks `_onMessage` handling the reply to the
in-flight task; the rest are callback invocations. -/
inductive SEvent where
  | send (id : Nat) (action : String) (code : List Char)
  | beforeRunCb (id : Nat)
  | onSuccessCb (id : Nat)
  | onErrorCb (id : Nat)
  | afterRunCb (id : Nat)
  | replyProcessed (id : Nat) (isError : Bool)
deriving DecidableEq, Repr

/-- `Session.prototype._runNow`: fire `beforeRun` (when carried), then send
`[action, code]` to the worker. -/
def runNowEvents (t : STask) : List SEvent :=
  (if t.hasBeforeRun then [SEvent.beforeRunCb t.id] else []) ++
  [SEvent.send t.id t.action t.code]

/-- The callback invocations `_onMessage` performs for the in-flight task
when a reply arrives: `onError`/`onSuccess` according to the presence of the
`error` key, then `afterRun` — each only when the task carries it. -/
def cbEvents (t : STask) (isErr : Bool) : List SEvent :=
  (if isErr then (if t.hasOnError then [SEvent.onErrorCb t.id] else [])
   else (if t.hasOnSuccess then [SEvent.onSuccessCb t.id] else [])) ++
  (if t.hasAfterRun then [SEvent.afterRunCb t.id] else [])

/-- One step of the session controller.  The `kill` input models a `kill()`
call arriving from outside the task callbacks, between event-loop turns;
the refined model further below (`rStep`) additionally covers `kill()`
invoked synchronously from inside a task callback, which this step relation
cannot interleave. -/
def sessionStep (s : SessionState) (i : SInput) : SessionState × List SEvent :=
  match i with
  | .submit t =>
    if s.killed then (s, [])
    else
      match s.task with
      | none => ({ s with task := some t }, runNowEvents t)
      | some _ => ({ s with tasks := s.tasks ++ [t] }, [])
  | .reply isErr =>
    if s.killed then (s, [])
    else
      match s.task with
      | none => (s, [])
      | some t =>
        match s.tasks with
        | [] => ({ s with task := none },
            SEvent.replyProcessed t.id isErr :: cbEvents t isErr)
        | h :: rest => ({ s with task := some h, tasks := rest },
            (SEvent.replyProcessed t.id isErr :: cbEvents t isErr) ++ runNowEvents h)
  | .kill => ({ s with killed := true }, [])

/-- Run a session over a list of inputs, accumulating the event trace. -/
def runSession (s : SessionState) : List SInput → SessionState × List SEvent
  | [] => (s, [])
  | i :: rest =>
    ((runSession (sessionStep s i).1 rest).1,
     (sessionStep s i).2 ++ (runSession (sessionStep s i).1 rest).2)

/-- A freshly constructed session: idle, empty queue, not killed. -/
def initialSession : SessionState := ⟨none, [], false⟩

/-- The invariant relating `_task` and `_tasks`: a session never holds queued
tasks while idle. -/
def GoodSession (s : SessionState) : Prop := s.task = none → s.tasks = []

/-- The serialization discipline of a trace: a request may be sent only while
no request is outstanding, and a reply can be processed only while one is. -/
def okTrace (inflight : Bool) : List SEvent → Bool
  | [] => true
  | SEvent.send _ _ _ :: rest => !inflight && okTrace true rest
  | SEvent.replyProcessed _ _ :: rest => inflight && okTrace false rest
  | _ :: rest => okTrace inflight rest

/-- Whether a request is outstanding after the trace, starting from `b`. -/
def afterInflight (b : Bool) (evs : List SEvent) : Bool :=
  evs.foldl (fun b e =>
    match e with
    | SEvent.send _ _ _ => true
    | SEvent.replyProcessed _ _ => false
    | _ => b) b

/-- The ids of the requests sent to the worker, in order. -/
def sendIds (evs : List SEvent) : List Nat :=
  evs.filterMap (fun e =>
    match e with
    | SEvent.send i _ _ => some i
    | _ => none)

/-- The ids of the session's pending queue, in order. -/
def queueIds (s : SessionState) : List Nat := s.tasks.map STask.id

/-- Ids of the tasks submitted while the session is not killed
(`Session.prototype._run` drops submissions once `_killed` is set),
in submission order. -/
def aliveSubmittedIds : Bool → List SInput → List Nat
  | _, [] => []
  | k, SInput.submit t :: rest =>
    if k then aliveSubmittedIds k rest else t.id :: aliveSubmittedIds k rest
  | _, SInput.kill :: rest => aliveSubmittedIds true rest
  | k, SInput.reply _ :: rest => aliveSubmittedIds k rest

/-! ### Lemmas about `parseExpression` -/

theorem splitSelector_append (pre : List Char) :
    (splitSelector pre).1 ++ (splitSelector pre).2 = pre := by
  unfold splitSelector
  cases h : simpleIdentifierMatch pre with
  | none => simp
  | some p => simp [List.take_append_drop]

theorem splitOp_eq {l expr2 lo ro : List Char}
    (h : splitOp l = some (expr2, lo, ro)) : l = expr2 ++ lo ∧ lo ≠ [] := by
  unfold splitOp at h
  split at h
  case h_1 rest heq =>
    simp only [Option.some.injEq, Prod.mk.injEq] at h
    obtain ⟨h1, h2, h3⟩ := h
    subst h1 h2
    refine ⟨?_, by simp⟩
    have := congrArg List.reverse heq
    simpa using this
  case h_2 rest heq =>
    simp only [Option.some.injEq, Prod.mk.injEq] at h
    obtain ⟨h1, h2, h3⟩ := h
    subst h1 h2
    refine ⟨?_, by simp⟩
    have := congrArg List.reverse heq
    simpa using this
  case h_3 rest heq =>
    simp only [Option.some.injEq, Prod.mk.injEq] at h
    obtain ⟨h1, h2, h3⟩ := h
    subst h1 h2
    refine ⟨?_, by simp⟩
    have := congrArg List.reverse heq
    simpa using this
  case h_4 => exact absurd h (by simp)

theorem complexIdentifierMatch_lt {l : List Char} {idx : Nat}
    (h : complexIdentifierMatch l = some idx) : idx < l.length := by
  unfold complexIdentifierMatch at h
  have := List.mem_of_find?_eq_some h
  simpa using this

/--
Structure of every non-`null` result of `parseExpression`:
`matchedText = scope ++ leftOp ++ selector`, `matchedText` is the suffix of
`code.take cursorPos` starting at some index `j`, a non-empty scope comes
with a non-empty `leftOp`, and an empty scope forces empty operators.
-/
theorem parseExpression_shape {code : List Char} {cursorPos : Nat} {e : Expression}
    (h : parseExpression code cursorPos = some e) :
    e.matchedText = e.scope ++ e.leftOp ++ e.selector ∧
    (∃ j, e.matchedText = (code.take cursorPos).drop j) ∧
    (e.scope ≠ [] → e.leftOp ≠ []) ∧
    (e.scope = [] → e.leftOp = [] ∧ e.rightOp = []) := by
  unfold parseExpression at h
  by_cases hw : code.take cursorPos = [] ∨ lastIsWhitespace (code.take cursorPos)
  · rw [if_pos hw] at h
    injection h with h
    subst h
    exact ⟨rfl, ⟨(code.take cursorPos).length, by simp⟩, by simp, by simp⟩
  · rw [if_neg hw] at h
    set sel1 := (splitSelector (code.take cursorPos)).1 with hsel1
    set sel2 := (splitSelector (code.take cursorPos)).2 with hsel2
    have hsplit : sel1 ++ sel2 = code.take cursorPos := splitSelector_append _
    split at h
    · -- no access operator: bare identifier
      injection h with h
      subst h
      refine ⟨?_, ⟨sel1.length, by rw [jsSlice]⟩, by simp, by simp⟩
      show jsSlice code sel1.length cursorPos = [] ++ [] ++ sel2
      rw [jsSlice, ← hsplit]
      simp
    · rename_i expr2 lo ro hop
      obtain ⟨hex, hlo⟩ := splitOp_eq hop
      split at h
      · -- the complex-identifier scope matched
        rename_i idx hcx
        injection h with h
        subst h
        have hidx : idx ≤ expr2.length := le_of_lt (complexIdentifierMatch_lt hcx)
        have hscope : expr2.drop idx ≠ [] := by
          intro hnil
          rw [List.drop_eq_nil_iff] at hnil
          exact absurd hnil (not_le.mpr (complexIdentifierMatch_lt hcx))
        constructor
        · show jsSlice code idx cursorPos = expr2.drop idx ++ lo ++ sel2
          rw [jsSlice, ← hsplit, hex]
          rw [List.append_assoc, List.drop_append_eq_append_drop,
              Nat.sub_eq_zero_of_le hidx, List.drop_zero, List.append_assoc]
        · exact ⟨⟨idx, by rw [jsSlice]⟩, fun _ => hlo, fun hsc => absurd hsc hscope⟩
      · -- no scope match: with a non-empty operator the source returns null
        rw [if_neg hlo] at h
        exact absurd h (by simp)

/-! ### Claims C4 and C10 -/

/--
C4: for all `code` and `cursorPos` such that `code[0:cursorPos]` is empty or
ends in a whitespace character, `parseExpression` returns the Expression all
of whose fields are empty — in particular it never returns `null` for such
inputs.
-/
theorem claim_C4 (code : List Char) (cursorPos : Nat)
    (h : code.take cursorPos = [] ∨ lastIsWhitespace (code.take cursorPos)) :
    parseExpression code cursorPos = some ⟨[], [], [], [], []⟩ := by
  unfold parseExpression
  rw [if_pos h]

/-- Witness for C4 at the concrete input `code = "f "`, `cursorPos = 2`. -/
theorem claim_C4_witness :
    ((str "f ").take 2 = [] ∨ lastIsWhitespace ((str "f ").take 2)) ∧
    parseExpression (str "f ") 2 = some ⟨[], [], [], [], []⟩ :=
  ⟨Or.inr (by decide), claim_C4 (str "f ") 2 (Or.inr (by decide))⟩

/--
C10: every non-`null` Expression `e` returned by `parseExpression` satisfies
`e.matchedText = e.scope ++ e.leftOp ++ e.selector`; `e.matchedText` is a
suffix of `code[0:cursorPos]` (so it ends exactly at the cursor); and a
non-empty scope always comes with a non-empty `leftOp`.
-/
theorem claim_C10 (code : List Char) (cursorPos : Nat) (e : Expression)
    (h : parseExpression code cursorPos = some e) :
    e.matchedText = e.scope ++ e.leftOp ++ e.selector ∧
    (∃ j, e.matchedText = (code.take cursorPos).drop j) ∧
    (e.scope ≠ [] → e.leftOp ≠ []) := by
  obtain ⟨h1, h2, h3, _⟩ := parseExpression_shape h
  exact ⟨h1, h2, h3⟩

/-- Witness for C10 at the concrete input `code = "a.foo"`, `cursorPos = 5`. -/
theorem claim_C10_witness :
    parseExpression (str "a.foo") 5 =
      some ⟨str "a.foo", str "a", str ".", str "foo", []⟩ ∧
    ((str "a.foo" : List Char) = str "a" ++ str "." ++ str "foo" ∧
     (∃ j, (str "a.foo" : List Char) = ((str "a.foo").take 5).drop j) ∧
     ((str "a" : List Char) ≠ [] → (str "." : List Char) ≠ [])) :=
  ⟨by decide, claim_C10 (str "a.foo") 5 ⟨str "a.foo", str "a", str ".", str "foo", []⟩ (by decide)⟩

/-! ### Lemmas about the completion computation -/

theorem reduceShortest_cons_cons (x c : List Char) (xs : List (List Char)) :
    reduceShortest (x :: c :: xs) =
    reduceShortest ((if x.length ≤ c.length then x else c) :: xs) := rfl

/--
`reduceShortest` returns the first entry of minimal length: the list splits
as `l1 ++ shortest :: l2` where every entry of the whole list is at least as
long as `shortest` and every entry of `l1` (i.e. every earlier entry) is
strictly longer.
-/
theorem reduceShortest_spec (x : List Char) (xs : List (List Char)) :
    ∃ l1 l2, x :: xs = l1 ++ reduceShortest (x :: xs) :: l2 ∧
      (∀ t ∈ x :: xs, (reduceShortest (x :: xs)).length ≤ t.length) ∧
      (∀ t ∈ l1, (reduceShortest (x :: xs)).length < t.length) := by
  induction xs generalizing x with
  | nil =>
    refine ⟨[], [], by simp [reduceShortest], ?_, by simp⟩
    intro t ht
    simp only [List.mem_singleton] at ht
    subst ht
    simp [reduceShortest]
  | cons c xs ih =>
    rw [reduceShortest_cons_cons]
    by_cases hx : x.length ≤ c.length
    · rw [if_pos hx]
      obtain ⟨l1, l2, heq, hmin, hlt⟩ := ih x
      cases l1 with
      | nil =>
        simp only [List.nil_append, List.cons.injEq] at heq
        obtain ⟨hr, hxs⟩ := heq
        refine ⟨[], c :: l2, ?_, ?_, by simp⟩
        · rw [← hr, ← hxs]
          simp
        · intro t ht
          simp only [List.mem_cons] at ht
          rcases ht with rfl | rfl | ht
          · exact hmin t (by simp)
          · calc (reduceShortest (x :: xs)).length ≤ x.length := hmin x (by simp)
              _ ≤ t.length := hx
          · exact hmin t (by simp [ht])
      | cons a l1 =>
        simp only [List.cons_append, List.cons.injEq] at heq
        obtain ⟨rfl, hxs⟩ := heq
        refine ⟨x :: c :: l1, l2,
          by rw [List.cons_append, List.cons_append, ← hxs], ?_, ?_⟩
        · intro t ht
          simp only [List.mem_cons] at ht
          rcases ht with rfl | rfl | ht
          · exact hmin t (by simp)
          · calc (reduceShortest (x :: xs)).length ≤ x.length := hmin x (by simp)
              _ ≤ t.length := hx
          · exact hmin t (by simp [ht])
        · intro t ht
          simp only [List.mem_cons] at ht
          rcases ht with rfl | rfl | ht
          · exact hlt t (by simp)
          · calc (reduceShortest (x :: xs)).length < x.length := hlt x (by simp)
              _ ≤ t.length := hx
          · exact hlt t (by simp [ht])
    · rw [if_neg hx]
      have hcx : c.length < x.length := not_le.mp hx
      obtain ⟨l1, l2, heq, hmin, hlt⟩ := ih c
      cases l1 with
      | nil =>
        simp only [List.nil_append, List.cons.injEq] at heq
        obtain ⟨hr, hxs⟩ := heq
        refine ⟨[x], xs, by rw [← hr]; simp, ?_, ?_⟩
        · intro t ht
          simp only [List.mem_cons] at ht
          rcases ht with rfl | rfl | ht
          · calc (reduceShortest (c :: xs)).length ≤ c.length := hmin c (by simp)
              _ ≤ t.length := le_of_lt hcx
          · exact hmin t (by simp)
          · exact hmin t (by simp [ht])
        · intro t ht
          simp only [List.mem_singleton] at ht
          subst ht
          calc (reduceShortest (c :: xs)).length ≤ c.length := hmin c (by simp)
            _ < t.length := hcx
      | cons a l1 =>
        simp only [List.cons_append, List.cons.injEq] at heq
        obtain ⟨rfl, hxs⟩ := heq
        refine ⟨x :: c :: l1, l2,
          by rw [List.cons_append, List.cons_append, ← hxs], ?_, ?_⟩
        · intro t ht
          simp only [List.mem_cons] at ht
          rcases ht with rfl | rfl | ht
          · calc (reduceShortest (c :: xs)).length ≤ c.length := hmin c (by simp)
              _ ≤ t.length := le_of_lt hcx
          · exact hmin t (by simp)
          · exact hmin t (by simp [ht])
        · intro t ht
          simp only [List.mem_cons] at ht
          rcases ht with rfl | rfl | ht
          · calc (reduceShortest (c :: xs)).length ≤ c.length := hmin c (by simp)
              _ < t.length := hcx
          · exact hlt t (by simp)
          · exact hlt t (by simp [ht])


/-- The `cursorEnd` scanning loop computes the length of the longest common
prefix of the shortest match and the text of `code` from `start` on. -/
theorem scanLoop_eq (code : List Char) (sm : List Char) (i : Nat) :
    scanLoop code sm (i : Int) = ((i + commonPrefixLen sm (code.drop i) : Nat) : Int) := by
  induction sm generalizing i with
  | nil => simp [scanLoop, commonPrefixLen]
  | cons c rest ih =>
    by_cases hlt : i < code.length
    · have hdrop : code.drop i = code[i] :: code.drop (i + 1) :=
        List.drop_eq_getElem_cons hlt
      have hchar : charAt code (i : Int) = some code[i] := by
        simp [charAt, List.getElem?_eq_getElem hlt]
      unfold scanLoop
      rw [if_pos (by exact_mod_cast hlt), hchar]
      by_cases heq : code[i] = c
      · rw [if_pos (by rw [heq])]
        have : ((i : Int) + 1) = ((i + 1 : Nat) : Int) := by push_cast; ring
        rw [this, ih (i + 1), hdrop]
        rw [commonPrefixLen, if_pos heq.symm]
        push_cast
        ring
      · rw [if_neg (by simp [heq])]
        rw [hdrop, commonPrefixLen, if_neg (fun hc => heq hc.symm)]
        simp
    · have hdrop : code.drop i = [] := List.drop_eq_nil_of_le (le_of_not_lt hlt)
      unfold scanLoop
      rw [if_neg (by exact_mod_cast hlt)]
      rw [hdrop]
      simp [commonPrefixLen]

/-- If `pat` occurs somewhere in `code` then `strIndexOf` finds a (first)
occurrence. -/
theorem strIndexOf_isSome {code pat : List Char} (j : Nat)
    (hj : pat.isPrefixOf (code.drop j)) :
    ∃ i, strIndexOf code pat = some i ∧ pat.isPrefixOf (code.drop i) := by
  have hmem : ∃ a ∈ List.range (code.length + 1), pat.isPrefixOf (code.drop a) := by
    by_cases hle : j ≤ code.length
    · exact ⟨j, List.mem_range.mpr (by omega), hj⟩
    · have hdrop : code.drop j = [] := List.drop_eq_nil_of_le (by omega)
      rw [hdrop] at hj
      have hpat : pat = [] := by
        cases pat with
        | nil => rfl
        | cons a l => simp [List.isPrefixOf] at hj
      refine ⟨0, List.mem_range.mpr (by omega), ?_⟩
      rw [hpat]
      simp [List.isPrefixOf]
  have hsome : (strIndexOf code pat).isSome := by
    rw [strIndexOf, List.find?_isSome]
    simpa using hmem
  obtain ⟨i, hi⟩ := Option.isSome_iff_exists.mp hsome
  exact ⟨i, hi, by simpa using List.find?_some hi⟩

theorem completeOnSuccess_list (code : List Char) (cursorPos : Nat)
    (e : Expression) (names : List (List Char)) :
    (completeOnSuccess code cursorPos e names).list = completionList e names := by
  unfold completeOnSuccess
  split <;> rfl

/-! ### Claims C3, C5 and C6 -/

/--
C3 counterexample: a concrete complete call with non-empty scope (`"a"`),
selector `"foo"`, and worker names `["foo","foobar","bar"]` — the delivered
list is not `["foo","foobar"]` (it is the wrapped
`["a.foo","a.foobar"]`).
-/
theorem claim_C3_counterexample :
    parseExpression (str "a.foo") 5 =
      some ⟨str "a.foo", str "a", str ".", str "foo", []⟩ ∧
    (str "a" : List Char) ≠ [] ∧
    (completeResult (str "a.foo") 5 [str "foo", str "foobar", str "bar"]).list ≠
      [str "foo", str "foobar"] := by
  refine ⟨by decide, by decide, by decide⟩

/--
C3 (amended): for a complete call whose parsed Expression has non-empty
scope and selector `"foo"`, with worker names `["foo","foobar","bar"]`, the
selector filter keeps exactly `"foo"` and `"foobar"` in that order, and the
delivered list is those two entries each wrapped as
`scope ++ leftOp ++ entry ++ rightOp`.
-/
theorem claim_C3 (code : List Char) (cursorPos : Nat) (e : Expression)
    (h : parseExpression code cursorPos = some e) (hscope : e.scope ≠ [])
    (hsel : e.selector = str "foo") :
    (completeOnSuccess code cursorPos e [str "foo", str "foobar", str "bar"]).list =
      [e.scope ++ e.leftOp ++ str "foo" ++ e.rightOp,
       e.scope ++ e.leftOp ++ str "foobar" ++ e.rightOp] := by
  rw [completeOnSuccess_list]
  unfold completionList matchListFiltered matchListBase
  rw [if_pos (Or.inl (by simp [hscope]))]
  rw [if_neg hscope, hsel]
  rw [if_pos (by decide : (str "foo" : List Char) ≠ [])]
  have hfilter :
      [str "foo", str "foobar", str "bar"].filter
        (fun x => (str "foo").isPrefixOf x) = [str "foo", str "foobar"] := by decide
  rw [hfilter]
  simp

/-- Witness for C3 (amended) at `code = "a.foo"`, `cursorPos = 5`. -/
theorem claim_C3_witness :
    (completeOnSuccess (str "a.foo") 5 ⟨str "a.foo", str "a", str ".", str "foo", []⟩
        [str "foo", str "foobar", str "bar"]).list =
      [str "a" ++ str "." ++ str "foo" ++ [], str "a" ++ str "." ++ str "foobar" ++ []] :=
  claim_C3 (str "a.foo") 5 ⟨str "a.foo", str "a", str ".", str "foo", []⟩
    (by decide) (by decide) rfl

/--
C5: for a complete call whose parsed Expression has empty scope, the
candidate list is the worker names followed by the full reserved-word list
(in declared order), filtered by the selector prefix — so with an empty
selector nothing is filtered and the delivered list is exactly
`names ++ javascriptKeywords`.
-/
theorem claim_C5 (code : List Char) (cursorPos : Nat) (e : Expression)
    (names : List (List Char))
    (h : parseExpression code cursorPos = some e) (hscope : e.scope = []) :
    (completeOnSuccess code cursorPos e names).list =
      (names ++ javascriptKeywords).filter (fun s => e.selector.isPrefixOf s) ∧
    (e.selector = [] →
      (completeOnSuccess code cursorPos e names).list = names ++ javascriptKeywords) := by
  obtain ⟨-, -, -, hops⟩ := parseExpression_shape h
  obtain ⟨hleft, hright⟩ := hops hscope
  have hbase : (completeOnSuccess code cursorPos e names).list =
      (names ++ javascriptKeywords).filter (fun s => e.selector.isPrefixOf s) := by
    rw [completeOnSuccess_list]
    unfold completionList matchListFiltered matchListBase
    rw [hscope, hleft, hright]
    rw [if_neg (by simp)]
    rw [if_pos rfl]
    by_cases hsel : e.selector = []
    · rw [if_neg (by simp [hsel]), hsel]
      simp
    · rw [if_pos hsel]
  refine ⟨hbase, fun hsel => ?_⟩
  rw [hbase, hsel]
  simp

/-- Witness for C5: global completion at the empty prompt with worker names
`["parseInt"]` delivers `"parseInt"` followed by all reserved words. -/
theorem claim_C5_witness :
    (completeOnSuccess [] 0 ⟨[], [], [], [], []⟩ [str "parseInt"]).list =
      [str "parseInt"] ++ javascriptKeywords :=
  (claim_C5 [] 0 ⟨[], [], [], [], []⟩ [str "parseInt"] (by decide) rfl).2 rfl

/--
C6: for every complete call with a non-`null` parsed Expression: when the
final match list is non-empty, `cursorStart` is the first index of
`matchedText` in `code`, and `cursorEnd` is obtained by taking the shortest
entry of the final list (ties broken by first occurrence: the list splits as
`l1 ++ sm :: l2` with every entry of `l1` strictly longer and `sm` minimal
overall) and scanning from `cursorStart` while that entry agrees with `code`
character by character, capped at end of code or end of entry; when the
final list is empty, `cursorStart = cursorEnd = cursorPos`.
-/
theorem claim_C6 (code : List Char) (cursorPos : Nat) (e : Expression)
    (names : List (List Char))
    (h : parseExpression code cursorPos = some e) :
    ((completeOnSuccess code cursorPos e names).list ≠ [] →
      ∃ (i : Nat) (sm : List Char) (l1 l2 : List (List Char)),
        strIndexOf code e.matchedText = some i ∧
        (completeOnSuccess code cursorPos e names).cursorStart = (i : Int) ∧
        (completeOnSuccess code cursorPos e names).list = l1 ++ sm :: l2 ∧
        (∀ t ∈ (completeOnSuccess code cursorPos e names).list, sm.length ≤ t.length) ∧
        (∀ t ∈ l1, sm.length < t.length) ∧
        (completeOnSuccess code cursorPos e names).cursorEnd =
          ((i + commonPrefixLen sm (code.drop i) : Nat) : Int)) ∧
    ((completeOnSuccess code cursorPos e names).list = [] →
      (completeOnSuccess code cursorPos e names).cursorStart = (cursorPos : Int) ∧
      (completeOnSuccess code cursorPos e names).cursorEnd = (cursorPos : Int)) := by
  have hlist := completeOnSuccess_list code cursorPos e names
  constructor
  · intro hne
    rw [hlist] at hne
    -- the matched text occurs in `code`
    obtain ⟨-, ⟨j, hj⟩, -, -⟩ := parseExpression_shape h
    have hpre : e.matchedText.isPrefixOf (code.drop j) := by
      rw [List.isPrefixOf_iff_prefix, hj]
      have hsplitc : code.drop j =
          (code.take cursorPos).drop j ++ (code.drop cursorPos).drop (j - (code.take cursorPos).length) := by
        conv_lhs => rw [← List.take_append_drop cursorPos code]
        rw [List.drop_append_eq_append_drop]
      rw [hsplitc]
      exact List.prefix_append _ _
    obtain ⟨i, hfind, _⟩ := strIndexOf_isSome j hpre
    -- decompose the non-empty match list
    rcases hml : completionList e names with _ | ⟨m, ms⟩
    · exact absurd hml hne
    obtain ⟨l1, l2, hdec, hmin, hstrict⟩ := reduceShortest_spec m ms
    refine ⟨i, reduceShortest (m :: ms), l1, l2, hfind, ?_, ?_, ?_, hstrict, ?_⟩
    · unfold completeOnSuccess
      rw [if_pos (by rw [hml]; simp)]
      show jsIndexOf code e.matchedText = (i : Int)
      rw [jsIndexOf, hfind]
    · rw [hlist, hml]
      exact hdec
    · rw [hlist, hml]
      exact hmin
    · unfold completeOnSuccess
      rw [if_pos (by rw [hml]; simp)]
      show scanLoop code (reduceShortest (completionList e names))
          (jsIndexOf code e.matchedText) = _
      rw [jsIndexOf, hfind, hml, scanLoop_eq]
  · intro hnil
    rw [hlist] at hnil
    unfold completeOnSuccess
    rw [if_neg (by rw [hnil]; simp)]
    exact ⟨rfl, rfl⟩

/-- Witness for C6 at `code = "ab"`, `cursorPos = 2`, worker names
`["abc","abd"]`. -/
theorem claim_C6_witness :
    ((completeOnSuccess (str "ab") 2 ⟨str "ab", [], [], str "ab", []⟩
        [str "abc", str "abd"]).list ≠ [] →
      ∃ (i : Nat) (sm : List Char) (l1 l2 : List (List Char)),
        strIndexOf (str "ab") (str "ab") = some i ∧
        (completeOnSuccess (str "ab") 2 ⟨str "ab", [], [], str "ab", []⟩
          [str "abc", str "abd"]).cursorStart = (i : Int) ∧
        (completeOnSuccess (str "ab") 2 ⟨str "ab", [], [], str "ab", []⟩
          [str "abc", str "abd"]).list = l1 ++ sm :: l2 ∧
        (∀ t ∈ (completeOnSuccess (str "ab") 2 ⟨str "ab", [], [], str "ab", []⟩
          [str "abc", str "abd"]).list, sm.length ≤ t.length) ∧
        (∀ t ∈ l1, sm.length < t.length) ∧
        (completeOnSuccess (str "ab") 2 ⟨str "ab", [], [], str "ab", []⟩
          [str "abc", str "abd"]).cursorEnd =
          ((i + commonPrefixLen sm ((str "ab").drop i) : Nat) : Int)) ∧
    ((completeOnSuccess (str "ab") 2 ⟨str "ab", [], [], str "ab", []⟩
        [str "abc", str "abd"]).list = [] →
      (completeOnSuccess (str "ab") 2 ⟨str "ab", [], [], str "ab", []⟩
        [str "abc", str "abd"]).cursorStart = (2 : Int) ∧
      (completeOnSuccess (str "ab") 2 ⟨str "ab", [], [], str "ab", []⟩
        [str "abc", str "abd"]).cursorEnd = (2 : Int)) :=
  claim_C6 (str "ab") 2 ⟨str "ab", [], [], str "ab", []⟩ [str "abc", str "abd"] (by decide)

/-! ### Lemmas about the session controller -/

/-- Events that neither send a request nor process a reply. -/
def isNeutral : SEvent → Bool
  | SEvent.send _ _ _ => false
  | SEvent.replyProcessed _ _ => false
  | _ => true

theorem okTrace_append (b : Bool) (e1 e2 : List SEvent) :
    okTrace b (e1 ++ e2) = (okTrace b e1 && okTrace (afterInflight b e1) e2) := by
  induction e1 generalizing b with
  | nil => simp [okTrace, afterInflight]
  | cons e rest ih =>
    cases e <;>
      simp [okTrace, afterInflight, List.foldl_cons, ih, Bool.and_assoc]

theorem sendIds_append (a b : List SEvent) :
    sendIds (a ++ b) = sendIds a ++ sendIds b := by
  simp [sendIds, List.filterMap_append]

theorem okTrace_neutral {l : List SEvent} (h : ∀ e ∈ l, isNeutral e)
    (b : Bool) (tail : List SEvent) :
    okTrace b (l ++ tail) = okTrace b tail := by
  induction l with
  | nil => simp
  | cons e rest ih =>
    have he := h e (by simp)
    have hr : ∀ x ∈ rest, isNeutral x := fun x hx => h x (by simp [hx])
    cases e with
    | send i a c => simp [isNeutral] at he
    | replyProcessed i er => simp [isNeutral] at he
    | beforeRunCb i => rw [List.cons_append]; exact ih hr
    | onSuccessCb i => rw [List.cons_append]; exact ih hr
    | onErrorCb i => rw [List.cons_append]; exact ih hr
    | afterRunCb i => rw [List.cons_append]; exact ih hr

theorem afterInflight_neutral {l : List SEvent} (h : ∀ e ∈ l, isNeutral e)
    (b : Bool) (tail : List SEvent) :
    afterInflight b (l ++ tail) = afterInflight b tail := by
  induction l with
  | nil => simp
  | cons e rest ih =>
    have he := h e (by simp)
    have hr : ∀ x ∈ rest, isNeutral x := fun x hx => h x (by simp [hx])
    cases e with
    | send i a c => simp [isNeutral] at he
    | replyProcessed i er => simp [isNeutral] at he
    | beforeRunCb i => rw [List.cons_append]; exact ih hr
    | onSuccessCb i => rw [List.cons_append]; exact ih hr
    | onErrorCb i => rw [List.cons_append]; exact ih hr
    | afterRunCb i => rw [List.cons_append]; exact ih hr

theorem sendIds_neutral {l : List SEvent} (h : ∀ e ∈ l, isNeutral e) :
    sendIds l = [] := by
  induction l with
  | nil => rfl
  | cons e rest ih =>
    have he := h e (by simp)
    have hr : ∀ x ∈ rest, isNeutral x := fun x hx => h x (by simp [hx])
    cases e with
    | send i a c => simp [isNeutral] at he
    | replyProcessed i er => simp [sendIds, List.filterMap_cons]; simpa [sendIds] using ih hr
    | beforeRunCb i => simp [sendIds, List.filterMap_cons]; simpa [sendIds] using ih hr
    | onSuccessCb i => simp [sendIds, List.filterMap_cons]; simpa [sendIds] using ih hr
    | onErrorCb i => simp [sendIds, List.filterMap_cons]; simpa [sendIds] using ih hr
    | afterRunCb i => simp [sendIds, List.filterMap_cons]; simpa [sendIds] using ih hr

theorem cbEvents_neutral (t : STask) (isErr : Bool) :
    ∀ e ∈ cbEvents t isErr, isNeutral e := by
  intro e he
  unfold cbEvents at he
  rcases List.mem_append.mp he with h | h
  · split at h
    · split at h <;> simp at h <;> subst h <;> rfl
    · split at h <;> simp at h <;> subst h <;> rfl
  · split at h <;> simp at h <;> subst h <;> rfl

theorem okTrace_runNow (t : STask) (tail : List SEvent) :
    okTrace false (runNowEvents t ++ tail) = okTrace true tail := by
  unfold runNowEvents
  by_cases hb : t.hasBeforeRun <;> simp [hb, okTrace]

theorem afterInflight_runNow (b : Bool) (t : STask) (tail : List SEvent) :
    afterInflight b (runNowEvents t ++ tail) = afterInflight true tail := by
  unfold runNowEvents
  by_cases hb : t.hasBeforeRun <;> simp [hb, afterInflight, List.foldl_cons]

theorem sendIds_runNow (t : STask) (tail : List SEvent) :
    sendIds (runNowEvents t ++ tail) = t.id :: sendIds tail := by
  unfold runNowEvents
  by_cases hb : t.hasBeforeRun <;> simp [hb, sendIds, List.filterMap_cons, List.filterMap_append]

theorem runSession_cons (s : SessionState) (i : SInput) (rest : List SInput) :
    runSession s (i :: rest) =
      ((runSession (sessionStep s i).1 rest).1,
       (sessionStep s i).2 ++ (runSession (sessionStep s i).1 rest).2) := rfl

/--
The session controller invariant: from any well-formed state, the produced
trace respects the at-most-one-in-flight discipline, the final in-flight
status matches the trace, and the ids sent plus the ids still queued are the
initial queue followed by the submissions that arrived while the session was
alive, in order.
-/
theorem runSession_master (inputs : List SInput) :
    ∀ s : SessionState, GoodSession s →
      GoodSession (runSession s inputs).1 ∧
      okTrace s.task.isSome (runSession s inputs).2 = true ∧
      afterInflight s.task.isSome (runSession s inputs).2 =
        (runSession s inputs).1.task.isSome ∧
      sendIds (runSession s inputs).2 ++ queueIds (runSession s inputs).1 =
        queueIds s ++ aliveSubmittedIds s.killed inputs := by
  induction inputs with
  | nil =>
    intro s hg
    exact ⟨hg, rfl, rfl, by simp [runSession, sendIds, aliveSubmittedIds]⟩
  | cons i rest ih =>
    rintro ⟨stask, stasks, skilled⟩ hg
    cases i with
    | submit t =>
      cases skilled with
      | true =>
        obtain ⟨g1, g2, g3, g4⟩ := ih ⟨stask, stasks, true⟩ hg
        exact ⟨g1, g2, g3, g4⟩
      | false =>
        cases stask with
        | none =>
          have hq : stasks = [] := hg rfl
          subst hq
          obtain ⟨g1, g2, g3, g4⟩ :=
            ih ⟨some t, [], false⟩ (fun h => by cases h)
          refine ⟨g1, ?_, ?_, ?_⟩
          · show okTrace false (runNowEvents t ++ _) = true
            rw [okTrace_runNow]
            exact g2
          · show afterInflight false (runNowEvents t ++ _) = _
            rw [afterInflight_runNow]
            exact g3
          · show sendIds (runNowEvents t ++ _) ++ _ = _
            rw [sendIds_runNow, List.cons_append]
            exact congrArg (List.cons t.id) g4
        | some t0 =>
          obtain ⟨g1, g2, g3, g4⟩ :=
            ih ⟨some t0, stasks ++ [t], false⟩ (fun h => by cases h)
          refine ⟨g1, g2, g3, ?_⟩
          show sendIds (runSession ⟨some t0, stasks ++ [t], false⟩ rest).2 ++
              queueIds (runSession ⟨some t0, stasks ++ [t], false⟩ rest).1 =
              stasks.map STask.id ++ (t.id :: aliveSubmittedIds false rest)
          rw [g4]
          show (stasks ++ [t]).map STask.id ++ aliveSubmittedIds false rest = _
          rw [List.map_append]
          simp
    | reply isErr =>
      cases skilled with
      | true =>
        obtain ⟨g1, g2, g3, g4⟩ := ih ⟨stask, stasks, true⟩ hg
        exact ⟨g1, g2, g3, g4⟩
      | false =>
        cases stask with
        | none =>
          obtain ⟨g1, g2, g3, g4⟩ := ih ⟨none, stasks, false⟩ hg
          exact ⟨g1, g2, g3, g4⟩
        | some t0 =>
          cases stasks with
          | nil =>
            obtain ⟨g1, g2, g3, g4⟩ :=
              ih ⟨none, [], false⟩ (fun _ => rfl)
            refine ⟨g1, ?_, ?_, ?_⟩
            · show (true && okTrace false (cbEvents t0 isErr ++ _)) = true
              rw [Bool.true_and, okTrace_neutral (cbEvents_neutral t0 isErr)]
              exact g2
            · show afterInflight false (cbEvents t0 isErr ++ _) = _
              rw [afterInflight_neutral (cbEvents_neutral t0 isErr)]
              exact g3
            · show sendIds (cbEvents t0 isErr ++ _) ++ _ = _
              rw [sendIds_append, sendIds_neutral (cbEvents_neutral t0 isErr),
                List.nil_append]
              exact g4
          | cons hd restq =>
            obtain ⟨g1, g2, g3, g4⟩ :=
              ih ⟨some hd, restq, false⟩ (fun h => by cases h)
            refine ⟨g1, ?_, ?_, ?_⟩
            · show okTrace true
                (((SEvent.replyProcessed t0.id isErr :: cbEvents t0 isErr) ++
                  runNowEvents hd) ++ _) = true
              rw [List.append_assoc]
              show (true && okTrace false (cbEvents t0 isErr ++ (runNowEvents hd ++ _))) = true
              rw [Bool.true_and, okTrace_neutral (cbEvents_neutral t0 isErr), okTrace_runNow]
              exact g2
            · show afterInflight true
                (((SEvent.replyProcessed t0.id isErr :: cbEvents t0 isErr) ++
                  runNowEvents hd) ++ _) = _
              rw [List.append_assoc]
              show afterInflight false (cbEvents t0 isErr ++ (runNowEvents hd ++ _)) = _
              rw [afterInflight_neutral (cbEvents_neutral t0 isErr), afterInflight_runNow]
              exact g3
            · show sendIds
                (((SEvent.replyProcessed t0.id isErr :: cbEvents t0 isErr) ++
                  runNowEvents hd) ++ _) ++ _ = _
              rw [List.append_assoc]
              show sendIds (cbEvents t0 isErr ++ (runNowEvents hd ++ _)) ++ _ = _
              rw [sendIds_append, sendIds_neutral (cbEvents_neutral t0 isErr),
                List.nil_append, sendIds_runNow, List.cons_append]
              exact congrArg (List.cons hd.id) g4
    | kill =>
      obtain ⟨g1, g2, g3, g4⟩ := ih ⟨stask, stasks, true⟩ hg
      exact ⟨g1, g2, g3, g4⟩

/-- After `kill` (`_killed` set, listeners removed), a session is inert:
no input produces any event or state change. -/
theorem killed_run (inputs : List SInput) :
    ∀ s : SessionState, s.killed = true → runSession s inputs = (s, []) := by
  induction inputs with
  | nil => intro s _; rfl
  | cons i rest ih =>
    rintro ⟨stask, stasks, skilled⟩ hk
    have hks : skilled = true := hk
    subst hks
    cases i with
    | submit t =>
      rw [runSession_cons]
      have hstep : sessionStep ⟨stask, stasks, true⟩ (SInput.submit t) =
          (⟨stask, stasks, true⟩, []) := rfl
      rw [hstep, ih ⟨stask, stasks, true⟩ rfl]
      rfl
    | reply isErr =>
      rw [runSession_cons]
      have hstep : sessionStep ⟨stask, stasks, true⟩ (SInput.reply isErr) =
          (⟨stask, stasks, true⟩, []) := rfl
      rw [hstep, ih ⟨stask, stasks, true⟩ rfl]
      rfl
    | kill =>
      rw [runSession_cons]
      have hstep : sessionStep ⟨stask, stasks, true⟩ SInput.kill =
          (⟨stask, stasks, true⟩, []) := rfl
      rw [hstep, ih ⟨stask, stasks, true⟩ rfl]
      rfl

/-! ### Claim C1 -/

/--
C1: over every input sequence driving a fresh session, (a) the trace
respects the serialization discipline — a request is sent to the worker only
while none is outstanding, and each reply is processed while exactly one is
(`okTrace`), so the worker never receives a second request before the reply
to the first is processed; and (b) the ids of the requests actually sent,
followed by the ids still pending in the queue, equal the ids submitted
while the session was alive, in submission order — i.e. pending tasks are
dispatched one at a time in FIFO submission order.
-/
theorem claim_C1 (inputs : List SInput) :
    okTrace false (runSession initialSession inputs).2 = true ∧
    sendIds (runSession initialSession inputs).2 ++
        queueIds (runSession initialSession inputs).1 =
      aliveSubmittedIds false inputs := by
  obtain ⟨-, g2, -, g4⟩ := runSession_master inputs initialSession (fun _ => rfl)
  exact ⟨g2, g4⟩

/-! ### Lemmas about `findSome?` (the first-hit walk) -/

theorem findSome?_eq_some_iff {α β : Type} (f : α → Option β) (l : List α) (d : β) :
    l.findSome? f = some d ↔
      ∃ l1 c l2, l = l1 ++ c :: l2 ∧ f c = some d ∧ ∀ x ∈ l1, f x = none := by
  induction l with
  | nil =>
    constructor
    · intro h
      simp [List.findSome?] at h
    · rintro ⟨l1, c, l2, heq, -, -⟩
      exact absurd heq (by simp)
  | cons a l ih =>
    cases hfa : f a with
    | some b =>
      constructor
      · intro h
        rw [List.findSome?_cons, hfa] at h
        refine ⟨[], a, l, rfl, ?_, by simp⟩
        rw [hfa]
        exact h
      · rintro ⟨l1, c, l2, heq, hfc, hl1⟩
        cases l1 with
        | nil =>
          simp only [List.nil_append, List.cons.injEq] at heq
          obtain ⟨rfl, rfl⟩ := heq
          rw [List.findSome?_cons, hfa]
          rw [hfa] at hfc
          exact hfc
        | cons x l1 =>
          simp only [List.cons_append, List.cons.injEq] at heq
          obtain ⟨rfl, -⟩ := heq
          have := hl1 a (by simp)
          rw [hfa] at this
          exact absurd this (by simp)
    | none =>
      rw [List.findSome?_cons, hfa]
      constructor
      · intro h
        obtain ⟨l1, c, l2, heq, hfc, hl1⟩ := ih.mp h
        refine ⟨a :: l1, c, l2, by rw [heq]; rfl, hfc, ?_⟩
        intro x hx
        rcases List.mem_cons.mp hx with rfl | hx
        · exact hfa
        · exact hl1 x hx
      · rintro ⟨l1, c, l2, heq, hfc, hl1⟩
        cases l1 with
        | nil =>
          simp only [List.nil_append, List.cons.injEq] at heq
          obtain ⟨rfl, rfl⟩ := heq
          rw [hfa] at hfc
          exact absurd hfc (by simp)
        | cons x l1 =>
          simp only [List.cons_append, List.cons.injEq] at heq
          obtain ⟨rfl, heq⟩ := heq
          exact ih.mpr ⟨l1, c, l2, heq, hfc, fun y hy => hl1 y (by simp [hy])⟩

/-! ### Claims C7 and C9 -/

/--
C7: for an inspect call whose parsed Expression has non-empty scope, when
both primitive replies succeed, the trace is: dispatch of the expression
inspection, then dispatch of a second `inspect` request whose code is the
scope, then — only after documentation resolution — `onInspectionSuccess`
with the first reply stamped and enriched with the documentation obtained by
walking the second reply's constructor list in order, then `afterRun`.  The
attached documentation is the first hit of
`<constructorName>.prototype.<selector>` in walk order, or nothing when no
entry matches.
-/
theorem claim_C7 (table : List Char → Option DocEntry) (code : List Char)
    (cursorPos : Nat) (e : Expression) (p1 p2 : InspectionPayload)
    (h : parseExpression code cursorPos = some e) (hscope : e.scope ≠ []) :
    inspectFlow table code cursorPos (Reply.success p1) (Reply.success p2) =
      [Ev.beforeRun, Ev.request "inspect" e.matchedText,
       Ev.beforeRun, Ev.request "inspect" e.scope,
       Ev.onInspectionSuccess
         ⟨p1, code, cursorPos, e.matchedText,
          docFromConstructorList table e.selector p2.constructorList⟩,
       Ev.afterRun] ∧
    (∀ (cl : List (List Char)) (d : DocEntry), p2.constructorList = some cl →
      (docFromConstructorList table e.selector p2.constructorList = some d ↔
        ∃ l1 c l2, cl = l1 ++ c :: l2 ∧
          getDocumentation table (c ++ str ".prototype." ++ e.selector) = some d ∧
          ∀ x ∈ l1,
            getDocumentation table (x ++ str ".prototype." ++ e.selector) = none)) := by
  constructor
  · simp [inspectFlow, h, hscope]
  · intro cl d hcl
    rw [docFromConstructorList.eq_def, hcl]
    exact findSome?_eq_some_iff _ cl d

/-- Witness for C7 at `code = "a.b"`, `cursorPos = 3`, with an empty
documentation table and concrete payloads. -/
theorem claim_C7_witness :
    inspectFlow (fun _ => none) (str "a.b") 3
        (Reply.success ⟨str "1", str "number", some [str "Number"], none⟩)
        (Reply.success ⟨str "o", str "object", some [str "Object"], none⟩) =
      [Ev.beforeRun, Ev.request "inspect" (str "a.b"),
       Ev.beforeRun, Ev.request "inspect" (str "a"),
       Ev.onInspectionSuccess
         ⟨⟨str "1", str "number", some [str "Number"], none⟩, str "a.b", 3, str "a.b",
          docFromConstructorList (fun _ => none) (str "b") (some [str "Object"])⟩,
       Ev.afterRun] :=
  (claim_C7 (fun _ => none) (str "a.b") 3
    ⟨str "a.b", str "a", str ".", str "b", []⟩
    ⟨str "1", str "number", some [str "Number"], none⟩
    ⟨str "o", str "object", some [str "Object"], none⟩
    (by decide) (by decide)).1

/--
C9: when either primitive inspect request replies with an error, the
caller's `onError` fires but `afterRun` never does (the inspect tasks carry
no `afterRun`, and the caller's `afterRun` is only invoked on the success
path after documentation resolution).  By contrast, `execute` and `complete`
tasks carry `afterRun`, which therefore fires on both the success and the
error path.
-/
theorem claim_C9 :
    (∀ (table : List Char → Option DocEntry) (code : List Char) (cursorPos : Nat)
       (e : Expression) (err : ErrorResult) (r2 : Reply InspectionPayload),
       parseExpression code cursorPos = some e →
       inspectFlow table code cursorPos (Reply.error err) r2 =
         [Ev.beforeRun, Ev.request "inspect" e.matchedText, Ev.onError err] ∧
       Ev.afterRun ∉ inspectFlow table code cursorPos (Reply.error err) r2) ∧
    (∀ (table : List Char → Option DocEntry) (code : List Char) (cursorPos : Nat)
       (e : Expression) (p1 : InspectionPayload) (err : ErrorResult),
       parseExpression code cursorPos = some e → e.scope ≠ [] →
       inspectFlow table code cursorPos (Reply.success p1) (Reply.error err) =
         [Ev.beforeRun, Ev.request "inspect" e.matchedText,
          Ev.beforeRun, Ev.request "inspect" e.scope, Ev.onError err] ∧
       Ev.afterRun ∉ inspectFlow table code cursorPos (Reply.success p1) (Reply.error err)) ∧
    (∀ (code : List Char) (err : ErrorResult),
       executeFlow code (Reply.error err) =
         [Ev.beforeRun, Ev.request "run" code, Ev.onError err, Ev.afterRun]) ∧
    (∀ (code : List Char) (r : ExecutionResult),
       executeFlow code (Reply.success r) =
         [Ev.beforeRun, Ev.request "run" code, Ev.onExecutionSuccess r, Ev.afterRun]) ∧
    (∀ (code : List Char) (cursorPos : Nat) (e : Expression) (err : ErrorResult),
       parseExpression code cursorPos = some e →
       completeFlow code cursorPos (Reply.error err) =
         [Ev.beforeRun,
          Ev.request "getAllPropertyNames"
            (if e.scope = [] then str "global" else e.scope),
          Ev.onError err, Ev.afterRun]) ∧
    (∀ (code : List Char) (cursorPos : Nat) (e : Expression)
       (names : List (List Char)),
       parseExpression code cursorPos = some e →
       completeFlow code cursorPos (Reply.success names) =
         [Ev.beforeRun,
          Ev.request "getAllPropertyNames"
            (if e.scope = [] then str "global" else e.scope),
          Ev.onCompletionSuccess (completeOnSuccess code cursorPos e names),
          Ev.afterRun]) := by
  refine ⟨?_, ?_, ?_, ?_, ?_, ?_⟩
  · intro table code cursorPos e err r2 h
    constructor
    · simp [inspectFlow, h]
    · simp [inspectFlow, h]
  · intro table code cursorPos e p1 err h hscope
    constructor
    · simp [inspectFlow, h, hscope]
    · simp [inspectFlow, h, hscope]
  · intro code err
    rfl
  · intro code r
    rfl
  · intro code cursorPos e err h
    simp [completeFlow, h]
  · intro code cursorPos e names h
    simp [completeFlow, h]

/-- Witness for C9 at the first-reply-error path of a concrete inspect
call. -/
theorem claim_C9_witness :
    inspectFlow (fun _ => none) (str "a.b") 3
        (Reply.error ⟨str "E", str "v", []⟩)
        (Reply.success ⟨[], [], none, none⟩) =
      [Ev.beforeRun, Ev.request "inspect" (str "a.b"),
       Ev.onError ⟨str "E", str "v", []⟩] ∧
    Ev.afterRun ∉ inspectFlow (fun _ => none) (str "a.b") 3
        (Reply.error ⟨str "E", str "v", []⟩)
        (Reply.success ⟨[], [], none, none⟩) :=
  claim_C9.1 (fun _ => none) (str "a.b") 3
    ⟨str "a.b", str "a", str ".", str "b", []⟩ ⟨str "E", str "v", []⟩
    (Reply.success ⟨[], [], none, none⟩) (by decide)

/-! ### Claim C8 -/

/--
C8 counterexample: the rewrite regex `/^[a-zA-Z]+Error./` has an unescaped
`.` that matches any character, so the name
`"RangeErrorsprototype.toString"` — which has no literal `<Anything>Error.`
prefix — is nevertheless rewritten to `"Error.prototype.toString"` and
resolves, while the lookup as the claim describes it finds nothing.
-/
theorem claim_C8_counterexample :
    getDocumentation
      (fun n => if n = str "Error.prototype.toString"
        then some ⟨str "d", none, str "u"⟩ else none)
      (str "RangeErrorsprototype.toString") = some ⟨str "d", none, str "u"⟩ ∧
    specGetDocumentation
      (fun n => if n = str "Error.prototype.toString"
        then some ⟨str "d", none, str "u"⟩ else none)
      (str "RangeErrorsprototype.toString") = none := by
  constructor
  · decide
  · decide

/--
C8 (amended): documentation lookup first tries the name verbatim; on a miss
it retries after rewriting a prefix of one or more ASCII letters followed by
`Error` and one further arbitrary character (the pattern dot matches any
character, the letter run being chosen greedily) to `Error.`; on a further
miss it likewise rewrites `<letters>Array<any char>` to `TypedArray.`;
it returns the first hit or nothing.  In particular
`"RangeError.prototype.toString"` with no direct entry resolves to whatever
the table holds under `"Error.prototype.toString"`.
-/
theorem claim_C8 :
    (∀ (table : List Char → Option DocEntry) (name : List Char) (d : DocEntry),
       table name = some d → getDocumentation table name = some d) ∧
    (∀ table : List Char → Option DocEntry,
       table (str "RangeError.prototype.toString") = none →
       getDocumentation table (str "RangeError.prototype.toString") =
         table (str "Error.prototype.toString")) ∧
    (∀ (table : List Char → Option DocEntry) (name : List Char),
       table name = none →
       table (rewriteBuiltin (str "Error") (str "Error.") name) = none →
       table (rewriteBuiltin (str "Array") (str "TypedArray.") name) = none →
       getDocumentation table name = none) := by
  refine ⟨?_, ?_, ?_⟩
  · intro table name d h
    unfold getDocumentation
    rw [h]
  · intro table hnone
    have h1 : rewriteBuiltin (str "Error") (str "Error.")
        (str "RangeError.prototype.toString") = str "Error.prototype.toString" := by
      decide
    have h2 : rewriteBuiltin (str "Array") (str "TypedArray.")
        (str "RangeError.prototype.toString") = str "RangeError.prototype.toString" := by
      decide
    unfold getDocumentation
    rw [hnone, h1, h2, hnone]
    cases htbl : table (str "Error.prototype.toString") <;> rfl
  · intro table name h1 h2 h3
    unfold getDocumentation
    rw [h1, h2, h3]

/-- Witness for C8 (amended) on a one-entry concrete table. -/
theorem claim_C8_witness :
    getDocumentation
      (fun n => if n = str "Error.prototype.toString"
        then some ⟨str "d", none, str "u"⟩ else none)
      (str "RangeError.prototype.toString") = some ⟨str "d", none, str "u"⟩ := by
  rw [claim_C8.2.1
    (fun n => if n = str "Error.prototype.toString"
      then some ⟨str "d", none, str "u"⟩ else none)
    (by decide)]
  decide

/-! ### The session controller under reentrant `kill`

`kill` is a public method: a caller may invoke it synchronously from inside
a task callback.  The source has no `_killed` recheck after a callback
returns — `_runNow` runs `this._server.send` unconditionally after
`beforeRun`, and `_onMessage` dispatches the next queued task
unconditionally after the in-flight task's callbacks.  The model below
refines the session controller for claim C2 by recording, for each
callback of a task, whether it synchronously calls `kill()`; callbacks are
modelled as provided, and the request payload (action/code) is dropped
since only the occurrence of a send matters here.  The `kill` input models
a `kill()` call arriving from outside any task callback.
-/

/-- A task together with the effect of each of its callbacks: whether the
callback synchronously calls `kill()` on its session. -/
structure RTask where
  id : Nat
  beforeRunKills : Bool
  onSuccessKills : Bool
  onErrorKills : Bool
  afterRunKills : Bool
deriving DecidableEq, Repr

/-- Session state for the reentrant model. -/
structure RState where
  task : Option RTask
  tasks : List RTask
  killed : Bool
deriving DecidableEq, Repr

/-- Externally visible events of the reentrant model.  `killCalled` marks a
`kill()` invocation (setting `_killed` and removing the message listeners),
whether it comes from inside a callback or from outside. -/
inductive REvent where
  | send (id : Nat)
  | beforeRunCb (id : Nat)
  | onSuccessCb (id : Nat)
  | onErrorCb (id : Nat)
  | afterRunCb (id : Nat)
  | replyProcessed (id : Nat)
  | killCalled
deriving DecidableEq, Repr

/-- Inputs of the reentrant model: a task submission, a worker reply, or a
`kill()` call from outside the task callbacks. -/
inductive RInput where
  | submit (t : RTask)
  | reply (isError : Bool)
  | kill
deriving DecidableEq, Repr

/--
`_runNow` with callback effects: set `_task`, invoke `beforeRun` (which may
synchronously call `kill`), then `this._server.send` — the source sends
unconditionally, with no `_killed` recheck after the callback.
-/
def rRunNow (s : RState) (t : RTask) : RState × List REvent :=
  if t.beforeRunKills then
    (⟨some t, s.tasks, true⟩,
     [REvent.beforeRunCb t.id, REvent.killCalled, REvent.send t.id])
  else
    (⟨some t, s.tasks, s.killed⟩, [REvent.beforeRunCb t.id, REvent.send t.id])

/-- Whether the reply-routing callback of `t` (its `onError` on an error
reply, its `onSuccess` otherwise) calls `kill()`. -/
def rcbKills (t : RTask) (isErr : Bool) : Bool :=
  if isErr then t.onErrorKills else t.onSuccessKills

/-- The callback invocations of `_onMessage` for the in-flight task, with a
`killCalled` event after each callback that calls `kill()`. -/
def rcbEvents (t : RTask) (isErr : Bool) : List REvent :=
  (if isErr then [REvent.onErrorCb t.id] else [REvent.onSuccessCb t.id]) ++
  (if rcbKills t isErr then [REvent.killCalled] else []) ++
  [REvent.afterRunCb t.id] ++
  (if t.afterRunKills then [REvent.killCalled] else [])

/--
One step of the session controller with callback effects.  In the reply
case the source runs the in-flight task's callbacks and then, if the queue
is non-empty, calls `_runNow(this._tasks.shift())` without rechecking
`_killed` — so a `kill()` from inside one of those callbacks does not stop
the dispatch.  A reply arriving after `kill` invokes nothing
(`removeAllListeners`), and a submission after `kill` is dropped by `_run`.
-/
def rStep (s : RState) (i : RInput) : RState × List REvent :=
  match i with
  | .submit t =>
    if s.killed then (s, [])
    else
      match s.task with
      | none => rRunNow s t
      | some _ => (⟨s.task, s.tasks ++ [t], s.killed⟩, [])
  | .reply isErr =>
    if s.killed then (s, [])
    else
      match s.task with
      | none => (s, [])
      | some t =>
        match s.tasks with
        | [] =>
          (⟨none, [], s.killed || rcbKills t isErr || t.afterRunKills⟩,
           REvent.replyProcessed t.id :: rcbEvents t isErr)
        | h :: rest =>
          ((rRunNow ⟨none, rest, s.killed || rcbKills t isErr || t.afterRunKills⟩ h).1,
           (REvent.replyProcessed t.id :: rcbEvents t isErr) ++
             (rRunNow ⟨none, rest, s.killed || rcbKills t isErr || t.afterRunKills⟩ h).2)
  | .kill => (⟨s.task, s.tasks, true⟩, [REvent.killCalled])

/-- Run the reentrant model over a list of inputs. -/
def runR : RState → List RInput → RState × List REvent
  | s, [] => (s, [])
  | s, i :: rest =>
    ((runR (rStep s i).1 rest).1, (rStep s i).2 ++ (runR (rStep s i).1 rest).2)

/-- A freshly constructed session in the reentrant model. -/
def initialR : RState := ⟨none, [], false⟩

theorem runR_cons (s : RState) (i : RInput) (rest : List RInput) :
    runR s (i :: rest) =
      ((runR (rStep s i).1 rest).1, (rStep s i).2 ++ (runR (rStep s i).1 rest).2) := rfl

/-- Once `_killed` is set, the session is inert from then on: the state is
frozen and the only possible further events are `kill()` calls themselves. -/
theorem rKilled_run (inputs : List RInput) :
    ∀ s : RState, s.killed = true →
      (runR s inputs).1 = s ∧
      ∀ ev ∈ (runR s inputs).2, ev = REvent.killCalled := by
  induction inputs with
  | nil => intro s _; exact ⟨rfl, by simp [runR]⟩
  | cons i rest ih =>
    rintro ⟨stask, stasks, skilled⟩ hk
    have hks : skilled = true := hk
    subst hks
    cases i with
    | submit t =>
      rw [runR_cons]
      have hstep : rStep ⟨stask, stasks, true⟩ (RInput.submit t) =
          (⟨stask, stasks, true⟩, []) := rfl
      rw [hstep]
      obtain ⟨h1, h2⟩ := ih ⟨stask, stasks, true⟩ rfl
      exact ⟨h1, by simpa using h2⟩
    | reply isErr =>
      rw [runR_cons]
      have hstep : rStep ⟨stask, stasks, true⟩ (RInput.reply isErr) =
          (⟨stask, stasks, true⟩, []) := rfl
      rw [hstep]
      obtain ⟨h1, h2⟩ := ih ⟨stask, stasks, true⟩ rfl
      exact ⟨h1, by simpa using h2⟩
    | kill =>
      rw [runR_cons]
      have hstep : rStep ⟨stask, stasks, true⟩ RInput.kill =
          (⟨stask, stasks, true⟩, [REvent.killCalled]) := rfl
      rw [hstep]
      obtain ⟨h1, h2⟩ := ih ⟨stask, stasks, true⟩ rfl
      refine ⟨h1, ?_⟩
      intro ev hev
      rcases List.mem_append.mp hev with h | h
      · simpa using h
      · exact h2 ev h

/-! ### Claim C2 -/

/--
C2 counterexample: `kill` called from inside a task callback is followed by
a request to the worker.  Concretely: task 0's `onSuccess` calls
`session.kill()` while task 1 is pending in the queue; `_onMessage` then
dispatches task 1 anyway — after the `killCalled` event, task 1's
`beforeRun` fires and `send 1` goes to the worker, so a task that was in
the pending queue at the time of `kill` is dispatched and its callbacks are
invoked, contradicting the claim as stated.
-/
theorem claim_C2_counterexample :
    (runR initialR
        [RInput.submit ⟨0, false, true, false, false⟩,
         RInput.submit ⟨1, false, false, false, false⟩,
         RInput.reply false]).2 =
      [REvent.beforeRunCb 0, REvent.send 0,
       REvent.replyProcessed 0, REvent.onSuccessCb 0, REvent.killCalled,
       REvent.afterRunCb 0,
       REvent.beforeRunCb 1, REvent.send 1] ∧
    (runR initialR
        [RInput.submit ⟨0, false, true, false, false⟩,
         RInput.submit ⟨1, false, false, false, false⟩]).1.tasks =
      [⟨1, false, false, false, false⟩] ∧
    (runR initialR
        [RInput.submit ⟨0, false, true, false, false⟩,
         RInput.submit ⟨1, false, false, false, false⟩]).1.killed = false := by
  refine ⟨rfl, rfl, rfl⟩

/--
C2 (amended): for every session on which `kill` has been called from
outside the task callbacks, no request is ever sent to the worker
afterwards, a task submitted after `kill` is silently dropped, and a task
already pending at the time of `kill` is never dispatched, with none of its
callbacks (beforeRun, onSuccess, onError, afterRun) ever invoked: every
event after such a `kill` is itself a `kill()` call, and both the current
task and the pending queue are frozen.  (When `kill` is instead called from
inside a task callback, the in-progress dispatch still completes — see the
counterexample.)
-/
theorem claim_C2 (pre post : List RInput) :
    (∀ ev ∈ (runR (runR initialR pre).1 (RInput.kill :: post)).2,
      ev = REvent.killCalled) ∧
    (runR (runR initialR pre).1 (RInput.kill :: post)).1.tasks =
      (runR initialR pre).1.tasks ∧
    (runR (runR initialR pre).1 (RInput.kill :: post)).1.task =
      (runR initialR pre).1.task := by
  rw [runR_cons]
  have hstep : rStep (runR initialR pre).1 RInput.kill =
      (⟨(runR initialR pre).1.task, (runR initialR pre).1.tasks, true⟩,
       [REvent.killCalled]) := rfl
  rw [hstep]
  obtain ⟨h1, h2⟩ := rKilled_run post
    ⟨(runR initialR pre).1.task, (runR initialR pre).1.tasks, true⟩ rfl
  refine ⟨?_, ?_, ?_⟩
  · intro ev hev
    rcases List.mem_append.mp hev with h | h
    · simpa using h
    · exact h2 ev h
  · rw [h1]
  · rw [h1]

/-- Witness for C2 (amended) at a concrete run: one task completes, `kill`
arrives from outside the callbacks, then a submission and a spurious reply
follow — nothing but the `kill()` itself is observed and the session state
stays frozen. -/
theorem claim_C2_witness :
    (∀ ev ∈ (runR (runR initialR [RInput.submit ⟨0, false, false, false, false⟩]).1
        (RInput.kill :: [RInput.submit ⟨1, false, false, false, false⟩,
                         RInput.reply false])).2,
      ev = REvent.killCalled) ∧
    (runR (runR initialR [RInput.submit ⟨0, false, false, false, false⟩]).1
        (RInput.kill :: [RInput.submit ⟨1, false, false, false, false⟩,
                         RInput.reply false])).1.tasks =
      (runR initialR [RInput.submit ⟨0, false, false, false, false⟩]).1.tasks ∧
    (runR (runR initialR [RInput.submit ⟨0, false, false, false, false⟩]).1
        (RInput.kill :: [RInput.submit ⟨1, false, false, false, false⟩,
                         RInput.reply false])).1.task =
      (runR initialR [RInput.submit ⟨0, false, false, false, false⟩]).1.task :=
  claim_C2 [RInput.submit ⟨0, false, false, false, false⟩]
    [RInput.submit ⟨1, false, false, false, false⟩, RInput.reply false]

end Nel
